import Mathlib

set_option maxHeartbeats 1000000

/-!
Verification of the `HashMap<KeyType, ValueType, Hash>` container of
`src/hashtable.h`: a closed-addressing hash table whose buckets hold
`shared_ptr`s to the entries.  The embedding models `shared_ptr` sharing with
an explicit entry store (`Store`) indexed by pointers (`Ptr`); a `HashMap`
value holds only pointers, so two maps holding the same pointers share the
underlying entries, exactly as two C++ maps holding copies of the same
`shared_ptr`s do.
-/

namespace HashTable

/-- A pointer (model of `pair_ptr = shared_ptr<pair<const KeyType, ValueType>>`):
an index into the global entry store.  Copying a pointer aliases the pointee. -/
abbrev Ptr := Nat

/-- The store of allocated entries: `st.getD p` is the pair `*p`.  Allocation
(`new pair(...)`) appends; erasing from a bucket merely drops the pointer (the
freed entry stays in the store, unreachable, which no observation can see). -/
abbrev Store (K V : Type) := List (K × V)

variable {K V : Type} [DecidableEq K] [Inhabited K] [Inhabited V]

/-- Dereference `*p`.  Dereferencing an invalid pointer is undefined behaviour
in the source; the model returns `default`, and every theorem guards pointer
validity through `WF`. -/
def entry (st : Store K V) (p : Ptr) : K × V :=
  st.getD p default

/-- `HashMap`: the hasher `hasher_`, the bucket table `table_` (vector of
vectors of `pair_ptr`), `current_size_` and `current_capacity_`.  The entry
store is external so that pointer sharing between maps is expressible. -/
structure HM (K V : Type) where
  hasher : K → Nat
  table : List (List Ptr)
  current_size : Nat
  current_capacity : Nat

/-- `MIN_NUM_OF_CELLS = 10`. -/
def MIN_NUM_OF_CELLS : Nat := 10

/-- `SCALE = 4`. -/
def SCALE : Nat := 4

/-- The default constructor: table of `MIN_NUM_OF_CELLS` empty cells,
`current_size_ = 0`, `current_capacity_ = MIN_NUM_OF_CELLS`. -/
def emptyHM (hasher : K → Nat) : HM K V :=
  { hasher := hasher
    table := List.replicate MIN_NUM_OF_CELLS []
    current_size := 0
    current_capacity := MIN_NUM_OF_CELLS }

/-- `table_[i]` (out-of-range access is undefined behaviour in the source;
the model yields the empty bucket, and `WF` keeps indices in range). -/
def bucketAt (t : List (List Ptr)) (i : Nat) : List Ptr := t.getD i []

/-- `hasher_(key) % current_capacity_`. -/
def hashOf (m : HM K V) (k : K) : Nat := m.hasher k % m.current_capacity

/-- The bucket scan `for (p : cell) if (p->first == key) ...`: first pointer
whose entry has the given key. -/
def lookupInBucket (st : Store K V) (k : K) : List Ptr → Option Ptr
  | [] => none
  | p :: ps => if (entry st p).1 = k then some p else lookupInBucket st k ps

/-- The indexed bucket scan of `erase`/`find`: index of the first entry in the
cell whose key matches. -/
def findInBucket (st : Store K V) (k : K) : List Ptr → Option Nat
  | [] => none
  | p :: ps =>
      if (entry st p).1 = k then some 0 else (findInBucket st k ps).map (· + 1)

/-- One step of the redistribution loop of `rebuild`: push pointer `p` onto
cell `hasher(p->first) % cap` of the new table. -/
def placeOne (st : Store K V) (hasher : K → Nat) (cap : Nat)
    (t : List (List Ptr)) (p : Ptr) : List (List Ptr) :=
  let h := hasher (entry st p).1 % cap
  t.set h (bucketAt t h ++ [p])

/-- The full redistribution loop of `rebuild` over a list of pointers (the old
table's cells in order, each cell in chain order = `table.flatten`). -/
def placeAll (st : Store K V) (hasher : K → Nat) (cap : Nat) :
    List Ptr → List (List Ptr) → List (List Ptr)
  | [], t => t
  | p :: ps, t => placeAll st hasher cap ps (placeOne st hasher cap t p)

/-- `rebuild()`: `current_capacity_ = max(MIN_NUM_OF_CELLS, size()*2)`, then
every pointer of the old table is re-linked (never copied) into a fresh table
of that length. -/
def rebuild (st : Store K V) (m : HM K V) : HM K V :=
  let cap := max MIN_NUM_OF_CELLS (m.current_size * 2)
  { m with
    current_capacity := cap
    table := placeAll st m.hasher cap m.table.flatten (List.replicate cap []) }

/-- `check_rebuild()`: two checks in sequence, the second seeing the state the
first produced. -/
def check_rebuild (st : Store K V) (m : HM K V) : HM K V :=
  let m1 := if m.current_size * SCALE < m.current_capacity then rebuild st m else m
  if m1.current_size > m1.current_capacity then rebuild st m1 else m1

/-- `insert(pair)`: scan the bucket of the key; if an equal key is already
there, return (no-op, nothing signalled); otherwise allocate a fresh entry,
push its pointer onto the bucket, increment the size and `check_rebuild`. -/
def insert (st : Store K V) (m : HM K V) (k : K) (v : V) :
    Store K V × HM K V :=
  let h := hashOf m k
  match lookupInBucket st k (bucketAt m.table h) with
  | some _ => (st, m)
  | none =>
      let st' := st ++ [(k, v)]
      let m' : HM K V :=
        { m with
          table := m.table.set h (bucketAt m.table h ++ [st.length])
          current_size := m.current_size + 1 }
      (st', check_rebuild st' m')

/-- `erase(key)`: remove the first matching entry of the key's bucket, if any,
decrement the size and `check_rebuild`; if the key is absent, do nothing.
The store is never touched (the `shared_ptr` merely leaves the bucket). -/
def erase (st : Store K V) (m : HM K V) (k : K) : HM K V :=
  let h := hashOf m k
  match findInBucket st k (bucketAt m.table h) with
  | some i =>
      let m' : HM K V :=
        { m with
          table := m.table.set h ((bucketAt m.table h).eraseIdx i)
          current_size := m.current_size - 1 }
      check_rebuild st m'
  | none => m

/-- An iterator: the cursor `(cell, positon)` pointing to
`table_[cell][positon]`; `cell = table_.size()` is the end-of-table cursor. -/
structure Iter where
  cell : Nat
  positon : Nat
deriving DecidableEq, Repr

/-- `find_valid_cell()`: while the cursor sits past the end of its cell's
chain, move to the next cell at offset 0. -/
def find_valid_cell (t : List (List Ptr)) (c p : Nat) : Iter :=
  if h : c < t.length ∧ p = (bucketAt t c).length then
    find_valid_cell t (c + 1) 0
  else
    ⟨c, p⟩
termination_by t.length - c
decreasing_by simp_wf; omega

/-- `begin()`: the normalized cursor built from `(0, 0)`. -/
def beginIter (m : HM K V) : Iter := find_valid_cell m.table 0 0

/-- `end()`: the cursor built from `(table_.size(), 0)` (normalization leaves
it unchanged). -/
def endIter (m : HM K V) : Iter := find_valid_cell m.table m.table.length 0

/-- `operator++`: bump the offset, then normalize. -/
def iterInc (t : List (List Ptr)) (i : Iter) : Iter :=
  find_valid_cell t i.cell (i.positon + 1)

/-- `operator*`: the entry `*table_[cell][positon]`. -/
def iterDeref (st : Store K V) (t : List (List Ptr)) (i : Iter) : K × V :=
  entry st ((bucketAt t i.cell).getD i.positon 0)

/-- `find(key)`: scan the key's bucket; on a hit build the iterator
`(hash, index)` (the constructor normalizes, a no-op at a valid position),
otherwise return `end()`. -/
def find (st : Store K V) (m : HM K V) (k : K) : Iter :=
  let h := hashOf m k
  match findInBucket st k (bucketAt m.table h) with
  | some i => find_valid_cell m.table h i
  | none => endIter m

/-- `at(key)`: scan the key's bucket and return its value; `none` models
`throw std::out_of_range` (NotFound).  `at` is `const`: it is a pure
observation, no state is returned because none changes. -/
def at_ (st : Store K V) (m : HM K V) (k : K) : Option V :=
  match lookupInBucket st k (bucketAt m.table (hashOf m k)) with
  | some p => some (entry st p).2
  | none => none

/-- `operator[](key)`: return a reference (the pointer of the entry holding
the value) if the key is present; otherwise `insert(key, ValueType())` and
recurse.  Under `WF` the key is found right after the insert, so the C++
recursion terminates after one round, which this definition unfolds; the last
arm is unreachable then. -/
def opIndex (st : Store K V) (m : HM K V) (k : K) :
    Store K V × HM K V × Ptr :=
  match lookupInBucket st k (bucketAt m.table (hashOf m k)) with
  | some p => (st, m, p)
  | none =>
      let r := insert st m k default
      match lookupInBucket r.1 k (bucketAt r.2.table (hashOf r.2 k)) with
      | some p => (r.1, r.2, p)
      | none => (r.1, r.2, 0)

/-- Assignment through a value reference (`map[k] = v`, i.e. writing the
`second` field of the pointee): the entry is updated in place, its const key
unchanged.  Every map holding this pointer sees the new value. -/
def storeSet (st : Store K V) (p : Ptr) (v : V) : Store K V :=
  st.set p ((entry st p).1, v)

/-- The copy constructor / copy assignment: member-wise copy of the hasher,
of `table_` — a vector of vectors of `shared_ptr`, so the pointers are copied
and the pointed-to entries are shared, not duplicated — and of the counters. -/
def copy (m : HM K V) : HM K V :=
  { hasher := m.hasher
    table := m.table
    current_size := m.current_size
    current_capacity := m.current_capacity }

/-- `operator=(const HashMap&& other)`: the parameter is a const rvalue
reference, so `std::move(other.table_)` is a `const vector&&`, which binds to
the copy assignment of `vector`, not its move assignment; every member is
copied and `other`, being const, is left untouched.  Result: (destination
after the call, source after the call). -/
def moveAssign (_dst src : HM K V) : HM K V × HM K V := (copy src, src)

/-- `clear()`: empty cells `0 .. current_capacity_-1`, reset the size, then
`rebuild()`. -/
def clear (st : Store K V) (m : HM K V) : HM K V :=
  let t := (List.range m.current_capacity).foldl (fun acc i => acc.set i []) m.table
  rebuild st { m with table := t, current_size := 0 }

/-- The live entries, in table order (cell order, chain order inside a cell):
the pairs a full iteration dereferences. -/
def entries (st : Store K V) (m : HM K V) : List (K × V) :=
  m.table.flatten.map (entry st)

/-- The live keys, in table order. -/
def keys (st : Store K V) (m : HM K V) : List K :=
  (entries st m).map Prod.fst

/-- Key membership in the whole table. -/
def containsKey (st : Store K V) (m : HM K V) (k : K) : Prop :=
  k ∈ keys st m

/-- Well-formedness of a map over a store: the table has `current_capacity_`
cells, the capacity respects the floor, pointers are valid, `current_size_`
counts the entries, keys are globally unique, and every pointer sits in the
cell its key hashes to. -/
def WF (st : Store K V) (m : HM K V) : Prop :=
  m.table.length = m.current_capacity ∧
  MIN_NUM_OF_CELLS ≤ m.current_capacity ∧
  (∀ p ∈ m.table.flatten, p < st.length) ∧
  m.current_size = m.table.flatten.length ∧
  (keys st m).Nodup ∧
  ∀ i, i < m.table.length →
    ∀ p ∈ bucketAt m.table i, m.hasher (entry st p).1 % m.current_capacity = i

/-- The load-factor condition the spec states for post-insert/erase states
(as it actually holds in the code: the lower bound degrades to nothing when
the capacity sits at its floor). -/
def LoadInv (m : HM K V) : Prop :=
  m.current_size ≤ m.current_capacity ∧
  MIN_NUM_OF_CELLS ≤ m.current_capacity ∧
  (m.current_capacity ≤ m.current_size * SCALE ∨
    m.current_capacity = MIN_NUM_OF_CELLS)

/-- The public operations, for reachability of states. -/
inductive Op (K V : Type) where
  | ins (k : K) (v : V)
  | del (k : K)
  | idx (k : K)
  | clr

/-- Run one public operation. -/
def applyOp (s : Store K V × HM K V) : Op K V → Store K V × HM K V
  | .ins k v => insert s.1 s.2 k v
  | .del k => (s.1, erase s.1 s.2 k)
  | .idx k => ((opIndex s.1 s.2 k).1, (opIndex s.1 s.2 k).2.1)
  | .clr => (s.1, clear s.1 s.2)

/-- Run a sequence of public operations from a fresh map. -/
def run (hasher : K → Nat) (ops : List (Op K V)) : Store K V × HM K V :=
  ops.foldl applyOp ([], emptyHM hasher)

/-- Full-table traversal by repeated increment: dereference-and-step `n`
times, stopping at the end-of-table cursor `(t.length, 0)`; returns the
produced pairs and the final cursor. -/
def collect (st : Store K V) (t : List (List Ptr)) :
    Nat → Iter → List (K × V) × Iter
  | 0, i => ([], i)
  | n + 1, i =>
      if i = ⟨t.length, 0⟩ then ([], i)
      else
        let r := collect st t n (iterInc t i)
        (iterDeref st t i :: r.1, r.2)

/-- The pointers not yet visited by the cursor `(c, p)`: the rest of cell `c`
from offset `p` on, then all later cells. -/
def restList (t : List (List Ptr)) (c p : Nat) : List Ptr :=
  (bucketAt t c).drop p ++ (t.drop (c + 1)).flatten

/-! ### Decidability of the stated predicates, to evaluate them on concrete states -/

instance (st : Store K V) (m : HM K V) (k : K) : Decidable (containsKey st m k) := by
  unfold containsKey; infer_instance

instance (st : Store K V) (m : HM K V) : Decidable (WF st m) := by
  unfold WF; infer_instance

instance (m : HM K V) : Decidable (LoadInv m) := by
  unfold LoadInv; infer_instance

/-! ### Bucket access and table surgery -/

theorem bucketAt_eq_getElem {t : List (List Ptr)} {i : Nat} (hi : i < t.length) :
    bucketAt t i = t[i] := List.getD_eq_getElem t [] hi

theorem bucketAt_of_ge {t : List (List Ptr)} {i : Nat} (h : t.length ≤ i) :
    bucketAt t i = [] := by
  simp [bucketAt, List.getD_eq_getElem?_getD, List.getElem?_eq_none h]

theorem bucketAt_set_self {t : List (List Ptr)} {i : Nat} (b : List Ptr)
    (hi : i < t.length) : bucketAt (t.set i b) i = b := by
  simp [bucketAt, List.getD_eq_getElem?_getD, List.getElem?_set_self hi]

theorem bucketAt_set_ne {t : List (List Ptr)} {i j : Nat} (b : List Ptr)
    (hij : i ≠ j) : bucketAt (t.set i b) j = bucketAt t j := by
  simp [bucketAt, List.getD_eq_getElem?_getD, List.getElem?_set_ne hij]

theorem bucketAt_replicate (n i : Nat) :
    bucketAt (List.replicate n ([] : List Ptr)) i = [] := by
  unfold bucketAt
  rw [List.getD_eq_getElem?_getD, List.getElem?_replicate]
  split <;> rfl

theorem mem_flatten_iff {t : List (List Ptr)} {p : Ptr} :
    p ∈ t.flatten ↔ ∃ i, i < t.length ∧ p ∈ bucketAt t i := by
  rw [List.mem_flatten]
  constructor
  · rintro ⟨l, hl, hp⟩
    obtain ⟨i, hi, rfl⟩ := List.mem_iff_getElem.mp hl
    exact ⟨i, hi, by rwa [bucketAt_eq_getElem hi]⟩
  · rintro ⟨i, hi, hp⟩
    exact ⟨t[i], List.getElem_mem hi, by rwa [bucketAt_eq_getElem hi] at hp⟩

theorem flatten_drop_eq (t : List (List Ptr)) (c : Nat) :
    (t.drop c).flatten = bucketAt t c ++ (t.drop (c + 1)).flatten := by
  by_cases hc : c < t.length
  · rw [List.drop_eq_getElem_cons hc, List.flatten_cons, bucketAt_eq_getElem hc]
  · have h1 : t.length ≤ c := Nat.le_of_not_lt hc
    rw [List.drop_eq_nil_of_le h1, List.drop_eq_nil_of_le (Nat.le_succ_of_le h1),
      bucketAt_of_ge h1]
    rfl

theorem flatten_set_append_perm {t : List (List Ptr)} {i : Nat} (hi : i < t.length)
    (p : Ptr) :
    ((t.set i (bucketAt t i ++ [p])).flatten).Perm (t.flatten ++ [p]) := by
  rw [List.set_eq_take_cons_drop _ hi]
  conv_rhs => rw [← List.take_append_drop i t, List.drop_eq_getElem_cons hi]
  rw [bucketAt_eq_getElem hi]
  simp only [List.flatten_append, List.flatten_cons, List.append_assoc]
  refine List.Perm.append_left _ (List.Perm.append_left _ ?_)
  exact List.perm_append_comm

theorem flatten_set_eraseIdx_perm {t : List (List Ptr)} {i j : Nat}
    (hi : i < t.length) (hj : j < (bucketAt t i).length) :
    t.flatten.Perm
      ((bucketAt t i).getD j 0 :: (t.set i ((bucketAt t i).eraseIdx j)).flatten) := by
  rw [← Multiset.coe_eq_coe]
  rw [List.set_eq_take_cons_drop _ hi, List.eraseIdx_eq_take_drop_succ]
  conv_lhs => rw [← List.take_append_drop i t, List.drop_eq_getElem_cons hi]
  rw [List.getD_eq_getElem _ _ hj, ← bucketAt_eq_getElem hi]
  conv_lhs =>
    rw [show (bucketAt t i : List Ptr) =
      (bucketAt t i).take j ++ (bucketAt t i)[j] :: (bucketAt t i).drop (j + 1) by
        rw [← List.drop_eq_getElem_cons hj, List.take_append_drop]]
  simp only [List.flatten_append, List.flatten_cons, List.append_assoc,
    ← Multiset.coe_add, ← Multiset.cons_coe, ← Multiset.singleton_add]
  abel

/-! ### The entry store -/

theorem entry_append {st : Store K V} {p : Ptr} (l : Store K V) (hp : p < st.length) :
    entry (st ++ l) p = entry st p := by
  unfold entry
  rw [List.getD_eq_getElem?_getD, List.getD_eq_getElem?_getD,
    List.getElem?_append_left hp]

theorem entry_append_self (st : Store K V) (e : K × V) :
    entry (st ++ [e]) st.length = e := by
  unfold entry
  rw [List.getD_eq_getElem?_getD, List.getElem?_append_right (Nat.le_refl _)]
  simp

/-! ### The bucket scans -/

theorem lookupInBucket_eq_none_iff {st : Store K V} {k : K} {b : List Ptr} :
    lookupInBucket st k b = none ↔ ∀ p ∈ b, (entry st p).1 ≠ k := by
  induction b with
  | nil => simp [lookupInBucket]
  | cons q qs ih =>
      by_cases h : (entry st q).1 = k
      · simp [lookupInBucket, h]
      · simp [lookupInBucket, h, ih]

theorem lookupInBucket_eq_some {st : Store K V} {k : K} {b : List Ptr} {p : Ptr}
    (h : lookupInBucket st k b = some p) : p ∈ b ∧ (entry st p).1 = k := by
  induction b with
  | nil => simp [lookupInBucket] at h
  | cons q qs ih =>
      rw [lookupInBucket] at h
      split at h
      · next hq => injection h with h'; subst h'; exact ⟨List.mem_cons_self _ _, hq⟩
      · next hq =>
          obtain ⟨h1, h2⟩ := ih h
          exact ⟨List.mem_cons_of_mem _ h1, h2⟩

theorem findInBucket_eq_none_iff {st : Store K V} {k : K} {b : List Ptr} :
    findInBucket st k b = none ↔ ∀ p ∈ b, (entry st p).1 ≠ k := by
  induction b with
  | nil => simp [findInBucket]
  | cons q qs ih =>
      by_cases h : (entry st q).1 = k
      · simp [findInBucket, h]
      · simp [findInBucket, h, ih]

theorem findInBucket_eq_some {st : Store K V} {k : K} {b : List Ptr} {j : Nat}
    (h : findInBucket st k b = some j) :
    j < b.length ∧ (entry st (b.getD j 0)).1 = k := by
  induction b generalizing j with
  | nil => simp [findInBucket] at h
  | cons q qs ih =>
      by_cases hq : (entry st q).1 = k
      · rw [findInBucket, if_pos hq] at h
        injection h with h'
        subst h'
        exact ⟨Nat.succ_pos _, hq⟩
      · rw [findInBucket, if_neg hq] at h
        cases hqs : findInBucket st k qs with
        | none => rw [hqs] at h; exact absurd h (by simp)
        | some j' =>
            rw [hqs] at h
            simp only [Option.map_some'] at h
            injection h with h'
            subst h'
            obtain ⟨h1, h2⟩ := ih hqs
            exact ⟨Nat.succ_lt_succ h1, by simpa [List.getD_cons_succ] using h2⟩

/-! ### Rebuild -/

theorem placeOne_length (st : Store K V) (f : K → Nat) (cap : Nat)
    (t : List (List Ptr)) (p : Ptr) : (placeOne st f cap t p).length = t.length := by
  simp [placeOne]

theorem placeAll_length (st : Store K V) (f : K → Nat) (cap : Nat) (ps : List Ptr) :
    ∀ t : List (List Ptr), (placeAll st f cap ps t).length = t.length := by
  induction ps with
  | nil => intro t; rfl
  | cons p ps ih => intro t; rw [placeAll, ih, placeOne_length]

theorem placeAll_flatten_perm (st : Store K V) (f : K → Nat) {cap : Nat}
    (hcap : 0 < cap) (ps : List Ptr) : ∀ t : List (List Ptr), t.length = cap →
    (placeAll st f cap ps t).flatten.Perm (t.flatten ++ ps) := by
  induction ps with
  | nil => intro t _; simp [placeAll]
  | cons p ps ih =>
      intro t ht
      rw [placeAll]
      have h1 := ih (placeOne st f cap t p) (by rw [placeOne_length, ht])
      refine h1.trans ?_
      have hlt : f (entry st p).1 % cap < t.length := by
        rw [ht]; exact Nat.mod_lt _ hcap
      have h2 : (placeOne st f cap t p).flatten.Perm (t.flatten ++ [p]) := by
        simp only [placeOne]
        exact flatten_set_append_perm hlt p
      have h3 := h2.append_right ps
      rw [List.append_assoc] at h3
      exact h3

theorem placeAll_placement (st : Store K V) (f : K → Nat) {cap : Nat}
    (ps : List Ptr) : ∀ t : List (List Ptr), t.length = cap →
    (∀ i, i < cap → ∀ p ∈ bucketAt t i, f (entry st p).1 % cap = i) →
    ∀ i, i < cap → ∀ p ∈ bucketAt (placeAll st f cap ps t) i,
      f (entry st p).1 % cap = i := by
  induction ps with
  | nil => intro t _ h; exact h
  | cons q qs ih =>
      intro t ht h
      rw [placeAll]
      refine ih (placeOne st f cap t q) (by rw [placeOne_length, ht]) ?_
      intro i hi p hp
      have hcap : 0 < cap := Nat.lt_of_le_of_lt (Nat.zero_le i) hi
      have hql : f (entry st q).1 % cap < t.length := by
        rw [ht]; exact Nat.mod_lt _ hcap
      simp only [placeOne] at hp
      by_cases hiq : f (entry st q).1 % cap = i
      · subst hiq
        rw [bucketAt_set_self _ hql] at hp
        rcases List.mem_append.mp hp with hp | hp
        · exact h _ (by omega) p hp
        · rw [List.mem_singleton.mp hp]
      · rw [bucketAt_set_ne _ hiq] at hp
        exact h i hi p hp

theorem min_cells_pos : 0 < MIN_NUM_OF_CELLS := Nat.succ_pos 9

theorem rebuild_size (st : Store K V) (m : HM K V) :
    (rebuild st m).current_size = m.current_size := rfl

theorem rebuild_hasher (st : Store K V) (m : HM K V) :
    (rebuild st m).hasher = m.hasher := rfl

theorem rebuild_capacity (st : Store K V) (m : HM K V) :
    (rebuild st m).current_capacity = max MIN_NUM_OF_CELLS (m.current_size * 2) := rfl

theorem rebuild_table (st : Store K V) (m : HM K V) :
    (rebuild st m).table =
      placeAll st m.hasher (max MIN_NUM_OF_CELLS (m.current_size * 2))
        m.table.flatten
        (List.replicate (max MIN_NUM_OF_CELLS (m.current_size * 2)) []) := rfl

theorem rebuild_flatten_perm (st : Store K V) (m : HM K V) :
    (rebuild st m).table.flatten.Perm m.table.flatten := by
  have hcap : 0 < max MIN_NUM_OF_CELLS (m.current_size * 2) :=
    Nat.lt_of_lt_of_le min_cells_pos (Nat.le_max_left _ _)
  have h := placeAll_flatten_perm st m.hasher hcap m.table.flatten
    (List.replicate (max MIN_NUM_OF_CELLS (m.current_size * 2)) []) (by simp)
  rw [rebuild_table]
  simpa using h

theorem entries_rebuild_perm (st : Store K V) (m : HM K V) :
    (entries st (rebuild st m)).Perm (entries st m) := by
  unfold entries
  exact (rebuild_flatten_perm st m).map (entry st)

theorem WF_rebuild {st : Store K V} {m : HM K V} (h : WF st m) :
    WF st (rebuild st m) := by
  obtain ⟨h1, h2, h3, h4, h5, h6⟩ := h
  have hperm := rebuild_flatten_perm st m
  have hcap : 0 < max MIN_NUM_OF_CELLS (m.current_size * 2) :=
    Nat.lt_of_lt_of_le min_cells_pos (Nat.le_max_left _ _)
  refine ⟨?_, ?_, ?_, ?_, ?_, ?_⟩
  · rw [rebuild_table, rebuild_capacity, placeAll_length]; simp
  · rw [rebuild_capacity]; exact Nat.le_max_left _ _
  · intro p hp; exact h3 p (hperm.mem_iff.mp hp)
  · rw [rebuild_size, h4]; exact hperm.length_eq.symm
  · unfold keys
    exact ((entries_rebuild_perm st m).map Prod.fst).nodup_iff.mpr h5
  · intro i hi p hp
    rw [rebuild_table, placeAll_length] at hi
    simp only [List.length_replicate] at hi
    rw [rebuild_hasher, rebuild_capacity]
    rw [rebuild_table] at hp
    refine placeAll_placement st m.hasher m.table.flatten
      (List.replicate (max MIN_NUM_OF_CELLS (m.current_size * 2)) [])
      (by simp) ?_ i hi p hp
    intro i' _ p' hp'
    rw [bucketAt_replicate] at hp'
    cases hp'

/-! ### The rebuild check -/

theorem check_rebuild_size (st : Store K V) (m : HM K V) :
    (check_rebuild st m).current_size = m.current_size := by
  simp only [check_rebuild]
  split <;> split <;> simp [rebuild_size]

theorem check_rebuild_hasher (st : Store K V) (m : HM K V) :
    (check_rebuild st m).hasher = m.hasher := by
  simp only [check_rebuild]
  split <;> split <;> simp [rebuild_hasher]

theorem check_rebuild_flatten_perm (st : Store K V) (m : HM K V) :
    (check_rebuild st m).table.flatten.Perm m.table.flatten := by
  simp only [check_rebuild]
  split <;> split <;>
    first
      | exact (rebuild_flatten_perm _ _).trans (rebuild_flatten_perm _ _)
      | exact rebuild_flatten_perm _ _
      | exact List.Perm.refl _

theorem entries_check_rebuild_perm (st : Store K V) (m : HM K V) :
    (entries st (check_rebuild st m)).Perm (entries st m) := by
  unfold entries
  exact (check_rebuild_flatten_perm st m).map (entry st)

theorem WF_check_rebuild {st : Store K V} {m : HM K V} (h : WF st m) :
    WF st (check_rebuild st m) := by
  simp only [check_rebuild]
  split <;> split <;>
    first
      | exact WF_rebuild (WF_rebuild h)
      | exact WF_rebuild h
      | exact h

theorem LoadInv_rebuild (st : Store K V) (m : HM K V) : LoadInv (rebuild st m) := by
  unfold LoadInv
  rw [rebuild_capacity, rebuild_size]
  unfold MIN_NUM_OF_CELLS SCALE
  omega

theorem LoadInv_check_rebuild {st : Store K V} {m : HM K V}
    (h : MIN_NUM_OF_CELLS ≤ m.current_capacity) : LoadInv (check_rebuild st m) := by
  simp only [check_rebuild]
  by_cases h1 : m.current_size * SCALE < m.current_capacity
  · rw [if_pos h1]
    by_cases h2 : (rebuild st m).current_size > (rebuild st m).current_capacity
    · rw [if_pos h2]; exact LoadInv_rebuild _ _
    · rw [if_neg h2]; exact LoadInv_rebuild _ _
  · rw [if_neg h1]
    by_cases h2 : m.current_size > m.current_capacity
    · rw [if_pos h2]; exact LoadInv_rebuild _ _
    · rw [if_neg h2]
      exact ⟨Nat.le_of_not_lt h2, h, Or.inl (Nat.le_of_not_lt h1)⟩

/-! ### Key membership, lookup and find -/

theorem keys_eq_map (st : Store K V) (m : HM K V) :
    keys st m = m.table.flatten.map (fun p => (entry st p).1) := by
  unfold keys entries
  rw [List.map_map]
  rfl

theorem cap_pos {st : Store K V} {m : HM K V} (h : WF st m) :
    0 < m.current_capacity :=
  Nat.lt_of_lt_of_le min_cells_pos h.2.1

theorem hashOf_lt {st : Store K V} {m : HM K V} (h : WF st m) (k : K) :
    hashOf m k < m.table.length := by
  rw [h.1]
  exact Nat.mod_lt _ (cap_pos h)

theorem mem_bucket_hash {st : Store K V} {m : HM K V} (h : WF st m) {p : Ptr} {k : K}
    (hp : p ∈ m.table.flatten) (hk : (entry st p).1 = k) :
    p ∈ bucketAt m.table (hashOf m k) := by
  obtain ⟨i, hi, hpi⟩ := mem_flatten_iff.mp hp
  have hhi : hashOf m k = i := by
    rw [hashOf, ← hk]
    exact h.2.2.2.2.2 i hi p hpi
  rw [hhi]
  exact hpi

theorem entry_eq_of_key {st : Store K V} {m : HM K V} (h : WF st m) {p q : Ptr}
    (hp : p ∈ m.table.flatten) (hq : q ∈ m.table.flatten)
    (hk : (entry st p).1 = (entry st q).1) : p = q := by
  have hnd : (m.table.flatten.map (fun r => (entry st r).1)).Nodup := by
    rw [← keys_eq_map]; exact h.2.2.2.2.1
  exact List.inj_on_of_nodup_map hnd hp hq hk

theorem containsKey_iff_scan {st : Store K V} {m : HM K V} (h : WF st m) (k : K) :
    containsKey st m k ↔
      lookupInBucket st k (bucketAt m.table (hashOf m k)) ≠ none := by
  constructor
  · intro hc hnone
    rw [lookupInBucket_eq_none_iff] at hnone
    rw [containsKey, keys_eq_map] at hc
    obtain ⟨p, hp, hk⟩ := List.mem_map.mp hc
    exact hnone p (mem_bucket_hash h hp hk) hk
  · intro hne
    cases hl : lookupInBucket st k (bucketAt m.table (hashOf m k)) with
    | none => exact absurd hl hne
    | some p =>
        obtain ⟨hp, hk⟩ := lookupInBucket_eq_some hl
        rw [containsKey, keys_eq_map]
        refine List.mem_map.mpr ⟨p, ?_, hk⟩
        exact mem_flatten_iff.mpr ⟨hashOf m k, hashOf_lt h k, hp⟩

theorem scan_entry {st : Store K V} {m : HM K V} {k : K} {v : V} (h : WF st m)
    (hv : (k, v) ∈ entries st m) :
    ∃ p, lookupInBucket st k (bucketAt m.table (hashOf m k)) = some p ∧
      entry st p = (k, v) := by
  unfold entries at hv
  obtain ⟨p0, hp0, he0⟩ := List.mem_map.mp hv
  have hk0 : (entry st p0).1 = k := by rw [he0]
  have hc : containsKey st m k := by
    rw [containsKey, keys_eq_map]
    exact List.mem_map.mpr ⟨p0, hp0, hk0⟩
  have hne := (containsKey_iff_scan h k).mp hc
  cases hl : lookupInBucket st k (bucketAt m.table (hashOf m k)) with
  | none => exact absurd hl hne
  | some p =>
      obtain ⟨hp, hk⟩ := lookupInBucket_eq_some hl
      have hpf : p ∈ m.table.flatten :=
        mem_flatten_iff.mpr ⟨hashOf m k, hashOf_lt h k, hp⟩
      have hpp : p = p0 := entry_eq_of_key h hpf hp0 (by rw [hk, hk0])
      exact ⟨p, rfl, by rw [hpp, he0]⟩

theorem at_eq_some_of_mem {st : Store K V} {m : HM K V} {k : K} {v : V}
    (h : WF st m) (hv : (k, v) ∈ entries st m) : at_ st m k = some v := by
  obtain ⟨p, hl, he⟩ := scan_entry h hv
  unfold at_
  rw [hl]
  show some (entry st p).2 = some v
  rw [he]

theorem at_eq_none_iff {st : Store K V} {m : HM K V} (h : WF st m) (k : K) :
    at_ st m k = none ↔ ¬containsKey st m k := by
  rw [containsKey_iff_scan h k]
  unfold at_
  cases hl : lookupInBucket st k (bucketAt m.table (hashOf m k)) with
  | none => simp
  | some p => simp

theorem findInBucket_none_iff_lookup_none {st : Store K V} {k : K} {b : List Ptr} :
    findInBucket st k b = none ↔ lookupInBucket st k b = none := by
  rw [findInBucket_eq_none_iff, lookupInBucket_eq_none_iff]

theorem endIter_eq (m : HM K V) : endIter m = ⟨m.table.length, 0⟩ := by
  unfold endIter
  rw [find_valid_cell]
  simp

theorem find_valid_cell_stop {t : List (List Ptr)} {c p : Nat}
    (h : ¬(c < t.length ∧ p = (bucketAt t c).length)) :
    find_valid_cell t c p = ⟨c, p⟩ := by
  rw [find_valid_cell, dif_neg h]

theorem find_valid_cell_step {t : List (List Ptr)} {c p : Nat}
    (h : c < t.length ∧ p = (bucketAt t c).length) :
    find_valid_cell t c p = find_valid_cell t (c + 1) 0 := by
  rw [find_valid_cell, dif_pos h]

theorem find_eq_of_scan_some {st : Store K V} {m : HM K V} {k : K} {j : Nat}
    (hl : findInBucket st k (bucketAt m.table (hashOf m k)) = some j) :
    find st m k = ⟨hashOf m k, j⟩ := by
  simp only [find]
  rw [hl]
  show find_valid_cell m.table (hashOf m k) j = _
  have hj := (findInBucket_eq_some hl).1
  exact find_valid_cell_stop (fun hcp => absurd hcp.2 (Nat.ne_of_lt hj))

theorem find_eq_end_of_scan_none {st : Store K V} {m : HM K V} {k : K}
    (hl : findInBucket st k (bucketAt m.table (hashOf m k)) = none) :
    find st m k = endIter m := by
  simp only [find]
  rw [hl]

theorem find_eq_end_iff {st : Store K V} {m : HM K V} (h : WF st m) (k : K) :
    find st m k = endIter m ↔ ¬containsKey st m k := by
  have hlen := hashOf_lt h k
  rw [containsKey_iff_scan h k, not_not, ← findInBucket_none_iff_lookup_none]
  constructor
  · intro hfe
    cases hl : findInBucket st k (bucketAt m.table (hashOf m k)) with
    | none => rfl
    | some j =>
        rw [find_eq_of_scan_some hl, endIter_eq] at hfe
        have : hashOf m k = m.table.length := congrArg Iter.cell hfe
        omega
  · exact find_eq_end_of_scan_none

theorem find_deref_of_mem {st : Store K V} {m : HM K V} {k : K} {v : V}
    (h : WF st m) (hv : (k, v) ∈ entries st m) :
    find st m k ≠ endIter m ∧ iterDeref st m.table (find st m k) = (k, v) := by
  have hc : containsKey st m k := by
    unfold entries at hv
    obtain ⟨p0, hp0, he0⟩ := List.mem_map.mp hv
    rw [containsKey, keys_eq_map]
    exact List.mem_map.mpr ⟨p0, hp0, by rw [he0]⟩
  refine ⟨fun hfe => ((find_eq_end_iff h k).mp hfe) hc, ?_⟩
  have hne : findInBucket st k (bucketAt m.table (hashOf m k)) ≠ none := by
    intro hl
    exact ((find_eq_end_iff h k).mp (find_eq_end_of_scan_none hl)) hc
  cases hl : findInBucket st k (bucketAt m.table (hashOf m k)) with
  | none => exact absurd hl hne
  | some j =>
      obtain ⟨hj, hkey⟩ := findInBucket_eq_some hl
      rw [find_eq_of_scan_some hl]
      unfold iterDeref
      show entry st ((bucketAt m.table (hashOf m k)).getD j 0) = (k, v)
      set q := (bucketAt m.table (hashOf m k)).getD j 0 with hq
      have hqmem : q ∈ bucketAt m.table (hashOf m k) := by
        rw [hq, List.getD_eq_getElem _ _ hj]
        exact List.getElem_mem hj
      have hqf : q ∈ m.table.flatten :=
        mem_flatten_iff.mpr ⟨hashOf m k, hashOf_lt h k, hqmem⟩
      unfold entries at hv
      obtain ⟨p0, hp0, he0⟩ := List.mem_map.mp hv
      have hqp : q = p0 := entry_eq_of_key h hqf hp0 (by rw [hkey, he0])
      rw [hqp, he0]

/-! ### Insert -/

theorem insert_eq_of_scan_some {st : Store K V} {m : HM K V} {k : K} {p : Ptr}
    (hl : lookupInBucket st k (bucketAt m.table (hashOf m k)) = some p) (v : V) :
    insert st m k v = (st, m) := by
  simp only [insert]
  rw [hl]

theorem insert_eq_of_scan_none {st : Store K V} {m : HM K V} {k : K}
    (hl : lookupInBucket st k (bucketAt m.table (hashOf m k)) = none) (v : V) :
    insert st m k v = (st ++ [(k, v)],
      check_rebuild (st ++ [(k, v)])
        { m with
          table := m.table.set (hashOf m k)
            (bucketAt m.table (hashOf m k) ++ [st.length])
          current_size := m.current_size + 1 }) := by
  simp only [insert]
  rw [hl]

theorem scan_none_of_not_contains {st : Store K V} {m : HM K V} {k : K}
    (h : WF st m) (hnc : ¬containsKey st m k) :
    lookupInBucket st k (bucketAt m.table (hashOf m k)) = none := by
  cases hl : lookupInBucket st k (bucketAt m.table (hashOf m k)) with
  | none => rfl
  | some p =>
      exact absurd ((containsKey_iff_scan h k).mpr (by rw [hl]; simp)) hnc

theorem insert_of_contains {st : Store K V} {m : HM K V} {k : K} (h : WF st m)
    (hc : containsKey st m k) (v : V) : insert st m k v = (st, m) := by
  have hne := (containsKey_iff_scan h k).mp hc
  cases hl : lookupInBucket st k (bucketAt m.table (hashOf m k)) with
  | none => exact absurd hl hne
  | some p => exact insert_eq_of_scan_some hl v

theorem WF_insert_mid {st : Store K V} {m : HM K V} {k : K} (h : WF st m)
    (hl : lookupInBucket st k (bucketAt m.table (hashOf m k)) = none) (v : V) :
    WF (st ++ [(k, v)])
      { m with
        table := m.table.set (hashOf m k)
          (bucketAt m.table (hashOf m k) ++ [st.length])
        current_size := m.current_size + 1 } := by
  have hlt : hashOf m k < m.table.length := hashOf_lt h k
  have hperm := flatten_set_append_perm hlt st.length
  have hnc : ¬containsKey st m k := fun hc => ((containsKey_iff_scan h k).mp hc) hl
  obtain ⟨h1, h2, h3, h4, h5, h6⟩ := h
  have hent : ∀ p ∈ m.table.flatten, entry (st ++ [(k, v)]) p = entry st p :=
    fun p hp => entry_append _ (h3 p hp)
  refine ⟨?_, ?_, ?_, ?_, ?_, ?_⟩
  · simp only [List.length_set]
    exact h1
  · exact h2
  · intro p hp
    rw [List.length_append, List.length_singleton]
    rcases List.mem_append.mp (hperm.mem_iff.mp hp) with hp' | hp'
    · exact Nat.lt_succ_of_lt (h3 p hp')
    · rw [List.mem_singleton.mp hp']; exact Nat.lt_succ_self _
  · show m.current_size + 1 = _
    rw [hperm.length_eq, List.length_append, List.length_singleton, h4]
  · rw [keys_eq_map]
    have hkp := hperm.map (fun p => (entry (st ++ [(k, v)]) p).1)
    refine hkp.nodup_iff.mpr ?_
    rw [List.map_append]
    have he1 : m.table.flatten.map (fun p => (entry (st ++ [(k, v)]) p).1) =
        m.table.flatten.map (fun p => (entry st p).1) :=
      List.map_congr_left (fun p hp => by rw [hent p hp])
    have he2 : [st.length].map (fun p => (entry (st ++ [(k, v)]) p).1) = [k] := by
      simp [entry_append_self]
    rw [he1, he2]
    refine (List.perm_append_comm).nodup_iff.mpr ?_
    rw [List.singleton_append, List.nodup_cons, ← keys_eq_map]
    exact ⟨hnc, h5⟩
  · intro i hi p hp
    simp only [List.length_set] at hi
    show m.hasher (entry (st ++ [(k, v)]) p).1 % m.current_capacity = i
    by_cases hih : i = hashOf m k
    · subst hih
      rw [bucketAt_set_self _ hlt] at hp
      rcases List.mem_append.mp hp with hp' | hp'
      · have hpf : p ∈ m.table.flatten :=
          mem_flatten_iff.mpr ⟨hashOf m k, hlt, hp'⟩
        rw [hent p hpf]
        exact h6 _ hlt p hp'
      · rw [List.mem_singleton.mp hp', entry_append_self]; rfl
    · rw [bucketAt_set_ne _ (fun hh => hih hh.symm)] at hp
      have hpf : p ∈ m.table.flatten := mem_flatten_iff.mpr ⟨i, hi, hp⟩
      rw [hent p hpf]
      exact h6 i hi p hp

theorem WF_insert {st : Store K V} {m : HM K V} (h : WF st m) (k : K) (v : V) :
    WF (insert st m k v).1 (insert st m k v).2 := by
  cases hl : lookupInBucket st k (bucketAt m.table (hashOf m k)) with
  | some p => rw [insert_eq_of_scan_some hl]; exact h
  | none => rw [insert_eq_of_scan_none hl]; exact WF_check_rebuild (WF_insert_mid h hl v)

theorem LoadInv_insert {st : Store K V} {m : HM K V} (h : WF st m)
    (hli : LoadInv m) (k : K) (v : V) : LoadInv (insert st m k v).2 := by
  cases hl : lookupInBucket st k (bucketAt m.table (hashOf m k)) with
  | some p => rw [insert_eq_of_scan_some hl]; exact hli
  | none => rw [insert_eq_of_scan_none hl]; exact LoadInv_check_rebuild h.2.1

theorem insert_size {st : Store K V} {m : HM K V} {k : K} (h : WF st m)
    (hnc : ¬containsKey st m k) (v : V) :
    (insert st m k v).2.current_size = m.current_size + 1 := by
  rw [insert_eq_of_scan_none (scan_none_of_not_contains h hnc) v]
  exact check_rebuild_size _ _

theorem insert_store {st : Store K V} {m : HM K V} {k : K} (h : WF st m)
    (hnc : ¬containsKey st m k) (v : V) :
    (insert st m k v).1 = st ++ [(k, v)] := by
  rw [insert_eq_of_scan_none (scan_none_of_not_contains h hnc) v]

theorem entries_insert_perm {st : Store K V} {m : HM K V} {k : K} (h : WF st m)
    (hnc : ¬containsKey st m k) (v : V) :
    (entries (insert st m k v).1 (insert st m k v).2).Perm
      (entries st m ++ [(k, v)]) := by
  have hl := scan_none_of_not_contains h hnc
  have hlt : hashOf m k < m.table.length := hashOf_lt h k
  rw [insert_eq_of_scan_none hl v]
  refine (entries_check_rebuild_perm _ _).trans ?_
  unfold entries
  have hperm := flatten_set_append_perm hlt st.length
  refine (hperm.map (entry (st ++ [(k, v)]))).trans ?_
  rw [List.map_append]
  have he1 : m.table.flatten.map (entry (st ++ [(k, v)])) =
      m.table.flatten.map (entry st) :=
    List.map_congr_left (fun p hp => entry_append _ (h.2.2.1 p hp))
  have he2 : [st.length].map (entry (st ++ [(k, v)])) = [(k, v)] := by
    simp [entry_append_self]
  rw [he1, he2]

/-! ### Erase -/

theorem erase_eq_of_scan_some {st : Store K V} {m : HM K V} {k : K} {j : Nat}
    (hl : findInBucket st k (bucketAt m.table (hashOf m k)) = some j) :
    erase st m k = check_rebuild st
      { m with
        table := m.table.set (hashOf m k)
          ((bucketAt m.table (hashOf m k)).eraseIdx j)
        current_size := m.current_size - 1 } := by
  simp only [erase]
  rw [hl]

theorem erase_eq_of_scan_none {st : Store K V} {m : HM K V} {k : K}
    (hl : findInBucket st k (bucketAt m.table (hashOf m k)) = none) :
    erase st m k = m := by
  simp only [erase]
  rw [hl]

theorem scan_some_of_contains {st : Store K V} {m : HM K V} {k : K} (h : WF st m)
    (hc : containsKey st m k) :
    ∃ j, findInBucket st k (bucketAt m.table (hashOf m k)) = some j := by
  have hne := (containsKey_iff_scan h k).mp hc
  cases hfl : findInBucket st k (bucketAt m.table (hashOf m k)) with
  | none => exact absurd (findInBucket_none_iff_lookup_none.mp hfl) hne
  | some j => exact ⟨j, rfl⟩

theorem erase_of_not_contains {st : Store K V} {m : HM K V} {k : K} (h : WF st m)
    (hnc : ¬containsKey st m k) : erase st m k = m := by
  refine erase_eq_of_scan_none ?_
  rw [findInBucket_none_iff_lookup_none]
  exact scan_none_of_not_contains h hnc

theorem WF_erase_mid {st : Store K V} {m : HM K V} {k : K} {j : Nat} (h : WF st m)
    (hl : findInBucket st k (bucketAt m.table (hashOf m k)) = some j) :
    WF st
      { m with
        table := m.table.set (hashOf m k)
          ((bucketAt m.table (hashOf m k)).eraseIdx j)
        current_size := m.current_size - 1 } := by
  have hlt : hashOf m k < m.table.length := hashOf_lt h k
  obtain ⟨hj, hkey⟩ := findInBucket_eq_some hl
  have hperm := flatten_set_eraseIdx_perm hlt hj
  obtain ⟨h1, h2, h3, h4, h5, h6⟩ := h
  refine ⟨?_, ?_, ?_, ?_, ?_, ?_⟩
  · simp only [List.length_set]
    exact h1
  · exact h2
  · intro p hp
    exact h3 p (hperm.mem_iff.mpr (List.mem_cons_of_mem _ hp))
  · show m.current_size - 1 = _
    have hlen := hperm.length_eq
    rw [List.length_cons] at hlen
    rw [h4, hlen]
    exact rfl
  · have hkp := hperm.map (fun p => (entry st p).1)
    rw [List.map_cons] at hkp
    have hnd : ((entry st ((bucketAt m.table (hashOf m k)).getD j 0)).1 ::
        (m.table.set (hashOf m k)
          ((bucketAt m.table (hashOf m k)).eraseIdx j)).flatten.map
            (fun p => (entry st p).1)).Nodup := by
      refine hkp.nodup_iff.mp ?_
      rw [← keys_eq_map]
      exact h5
    rw [keys_eq_map]
    exact hnd.of_cons
  · intro i hi p hp
    simp only [List.length_set] at hi
    show m.hasher (entry st p).1 % m.current_capacity = i
    by_cases hih : i = hashOf m k
    · subst hih
      rw [bucketAt_set_self _ hlt] at hp
      exact h6 _ hlt p (List.eraseIdx_subset _ j hp)
    · rw [bucketAt_set_ne _ (fun hh => hih hh.symm)] at hp
      exact h6 i hi p hp

theorem WF_erase {st : Store K V} {m : HM K V} (h : WF st m) (k : K) :
    WF st (erase st m k) := by
  cases hl : findInBucket st k (bucketAt m.table (hashOf m k)) with
  | some j => rw [erase_eq_of_scan_some hl]; exact WF_check_rebuild (WF_erase_mid h hl)
  | none => rw [erase_eq_of_scan_none hl]; exact h

theorem LoadInv_erase {st : Store K V} {m : HM K V} (h : WF st m)
    (hli : LoadInv m) (k : K) : LoadInv (erase st m k) := by
  cases hl : findInBucket st k (bucketAt m.table (hashOf m k)) with
  | some j => rw [erase_eq_of_scan_some hl]; exact LoadInv_check_rebuild h.2.1
  | none => rw [erase_eq_of_scan_none hl]; exact hli

theorem erase_size {st : Store K V} {m : HM K V} {k : K} (h : WF st m)
    (hc : containsKey st m k) :
    (erase st m k).current_size + 1 = m.current_size := by
  obtain ⟨j, hl⟩ := scan_some_of_contains h hc
  have hlt : hashOf m k < m.table.length := hashOf_lt h k
  obtain ⟨hj, hkey⟩ := findInBucket_eq_some hl
  have hperm := flatten_set_eraseIdx_perm hlt hj
  have hlen := hperm.length_eq
  rw [List.length_cons] at hlen
  rw [erase_eq_of_scan_some hl, check_rebuild_size]
  show m.current_size - 1 + 1 = m.current_size
  rw [h.2.2.2.1]
  omega

theorem containsKey_check_rebuild (st : Store K V) (mm : HM K V) (k : K) :
    containsKey st (check_rebuild st mm) k ↔ containsKey st mm k := by
  unfold containsKey
  rw [keys_eq_map, keys_eq_map]
  exact ((check_rebuild_flatten_perm st mm).map (fun p => (entry st p).1)).mem_iff

theorem not_contains_erase {st : Store K V} {m : HM K V} {k : K} (h : WF st m)
    (hc : containsKey st m k) : ¬containsKey st (erase st m k) k := by
  obtain ⟨j, hl⟩ := scan_some_of_contains h hc
  have hlt : hashOf m k < m.table.length := hashOf_lt h k
  obtain ⟨hj, hkey⟩ := findInBucket_eq_some hl
  have hperm := flatten_set_eraseIdx_perm hlt hj
  rw [erase_eq_of_scan_some hl]
  intro hcon
  rw [containsKey_check_rebuild] at hcon
  rw [containsKey, keys_eq_map] at hcon
  have hmid : k ∈ (m.table.set (hashOf m k)
      ((bucketAt m.table (hashOf m k)).eraseIdx j)).flatten.map
        (fun p => (entry st p).1) := hcon
  have hkp := hperm.map (fun p => (entry st p).1)
  rw [List.map_cons, hkey] at hkp
  have hnd : (k :: (m.table.set (hashOf m k)
      ((bucketAt m.table (hashOf m k)).eraseIdx j)).flatten.map
        (fun p => (entry st p).1)).Nodup := by
    refine hkp.nodup_iff.mp ?_
    rw [← keys_eq_map]
    exact h.2.2.2.2.1
  exact (List.nodup_cons.mp hnd).1 hmid

/-! ### Indexed access -/

theorem opIndex_of_scan_some {st : Store K V} {m : HM K V} {k : K} {p : Ptr}
    (hl : lookupInBucket st k (bucketAt m.table (hashOf m k)) = some p) :
    opIndex st m k = (st, m, p) := by
  simp only [opIndex]
  rw [hl]

theorem opIndex_state (st : Store K V) (m : HM K V) (k : K) :
    (opIndex st m k).1 = (insert st m k default).1 ∧
    (opIndex st m k).2.1 = (insert st m k default).2 := by
  simp only [opIndex]
  cases hl : lookupInBucket st k (bucketAt m.table (hashOf m k)) with
  | some p =>
      rw [insert_eq_of_scan_some hl]
      exact ⟨rfl, rfl⟩
  | none =>
      cases h2 : lookupInBucket (insert st m k default).1 k
          (bucketAt (insert st m k default).2.table
            (hashOf (insert st m k default).2 k)) with
      | some p => exact ⟨rfl, rfl⟩
      | none => exact ⟨rfl, rfl⟩

theorem WF_opIndex {st : Store K V} {m : HM K V} (h : WF st m) (k : K) :
    WF (opIndex st m k).1 (opIndex st m k).2.1 := by
  rw [(opIndex_state st m k).1, (opIndex_state st m k).2]
  exact WF_insert h k default

theorem LoadInv_opIndex {st : Store K V} {m : HM K V} (h : WF st m)
    (hli : LoadInv m) (k : K) : LoadInv (opIndex st m k).2.1 := by
  rw [(opIndex_state st m k).2]
  exact LoadInv_insert h hli k default

/-! ### Clear -/

theorem foldl_set_nil_length (t : List (List Ptr)) (n : Nat) :
    ((List.range n).foldl (fun acc j => acc.set j []) t).length = t.length := by
  induction n with
  | zero => rfl
  | succ n ih =>
      rw [List.range_succ, List.foldl_append]
      simp only [List.foldl_cons, List.foldl_nil, List.length_set]
      exact ih

theorem foldl_set_nil_bucket (t : List (List Ptr)) :
    ∀ n, n ≤ t.length → ∀ i, i < n →
      bucketAt ((List.range n).foldl (fun acc j => acc.set j []) t) i = [] := by
  intro n
  induction n with
  | zero => intro _ i hi; omega
  | succ n ih =>
      intro hn i hi
      rw [List.range_succ, List.foldl_append]
      simp only [List.foldl_cons, List.foldl_nil]
      have hlen' : ((List.range n).foldl (fun acc j => acc.set j []) t).length =
          t.length := foldl_set_nil_length t n
      by_cases hni : i = n
      · subst hni
        exact bucketAt_set_self _ (by rw [hlen']; omega)
      · rw [bucketAt_set_ne _ (fun hh => hni hh.symm)]
        exact ih (by omega) i (by omega)

theorem clear_eq (st : Store K V) (m : HM K V) :
    clear st m = rebuild st
      { m with
        table := (List.range m.current_capacity).foldl
          (fun acc j => acc.set j []) m.table
        current_size := 0 } := rfl

theorem WF_clear {st : Store K V} {m : HM K V} (h : WF st m) : WF st (clear st m) := by
  rw [clear_eq]
  refine WF_rebuild ?_
  have hlen := foldl_set_nil_length m.table m.current_capacity
  have hflat : ((List.range m.current_capacity).foldl
      (fun acc j => acc.set j []) m.table).flatten = [] := by
    rw [List.eq_nil_iff_forall_not_mem]
    intro p hp
    obtain ⟨i, hi, hpi⟩ := mem_flatten_iff.mp hp
    rw [hlen, h.1] at hi
    rw [foldl_set_nil_bucket m.table m.current_capacity (Nat.le_of_eq h.1.symm) i hi]
      at hpi
    cases hpi
  refine ⟨?_, h.2.1, ?_, ?_, ?_, ?_⟩
  · show _ = m.current_capacity
    rw [hlen, h.1]
  · intro p hp
    have hp' : p ∈ ((List.range m.current_capacity).foldl
        (fun acc j => acc.set j []) m.table).flatten := hp
    rw [hflat] at hp'
    cases hp'
  · show (0 : Nat) = _
    rw [hflat]
    rfl
  · rw [keys_eq_map]
    show (((List.range m.current_capacity).foldl
      (fun acc j => acc.set j []) m.table).flatten.map _).Nodup
    rw [hflat]
    exact List.nodup_nil
  · intro i hi p hp
    have hi' : i < m.current_capacity := by
      have : i < ((List.range m.current_capacity).foldl
          (fun acc j => acc.set j []) m.table).length := hi
      rw [hlen, h.1] at this
      exact this
    have hp' : p ∈ bucketAt ((List.range m.current_capacity).foldl
        (fun acc j => acc.set j []) m.table) i := hp
    rw [foldl_set_nil_bucket m.table m.current_capacity (Nat.le_of_eq h.1.symm) i hi']
      at hp'
    cases hp'

theorem LoadInv_clear (st : Store K V) (m : HM K V) : LoadInv (clear st m) := by
  rw [clear_eq]
  exact LoadInv_rebuild _ _

/-! ### The empty map and reachable states -/

theorem emptyHM_table (hasher : K → Nat) :
    (emptyHM hasher : HM K V).table = List.replicate MIN_NUM_OF_CELLS [] := rfl

theorem WF_emptyHM (hasher : K → Nat) : WF ([] : Store K V) (emptyHM hasher) := by
  have hfl : (emptyHM hasher : HM K V).table.flatten = [] := by
    rw [emptyHM_table, List.flatten_replicate_nil]
  refine ⟨rfl, Nat.le_refl _, ?_, ?_, ?_, ?_⟩
  · intro p hp
    rw [hfl] at hp
    cases hp
  · show (0 : Nat) = _
    rw [hfl]
    rfl
  · rw [keys_eq_map, hfl]
    exact List.nodup_nil
  · intro i hi p hp
    rw [emptyHM_table] at hp
    rw [bucketAt_replicate] at hp
    cases hp

theorem LoadInv_emptyHM (hasher : K → Nat) : LoadInv (emptyHM hasher : HM K V) :=
  ⟨Nat.zero_le _, Nat.le_refl _, Or.inr rfl⟩

theorem Inv_applyOp {s : Store K V × HM K V} (h : WF s.1 s.2) (hli : LoadInv s.2)
    (op : Op K V) :
    WF (applyOp s op).1 (applyOp s op).2 ∧ LoadInv (applyOp s op).2 := by
  cases op with
  | ins k v => exact ⟨WF_insert h k v, LoadInv_insert h hli k v⟩
  | del k => exact ⟨WF_erase h k, LoadInv_erase h hli k⟩
  | idx k => exact ⟨WF_opIndex h k, LoadInv_opIndex h hli k⟩
  | clr => exact ⟨WF_clear h, LoadInv_clear _ _⟩

theorem Inv_foldl (ops : List (Op K V)) :
    ∀ s : Store K V × HM K V, WF s.1 s.2 → LoadInv s.2 →
      WF (ops.foldl applyOp s).1 (ops.foldl applyOp s).2 ∧
        LoadInv (ops.foldl applyOp s).2 := by
  induction ops with
  | nil => intro s h hli; exact ⟨h, hli⟩
  | cons op ops ih =>
      intro s h hli
      rw [List.foldl_cons]
      obtain ⟨h', hli'⟩ := Inv_applyOp h hli op
      exact ih _ h' hli'

theorem WF_run (hasher : K → Nat) (ops : List (Op K V)) :
    WF (run hasher ops).1 (run hasher ops).2 ∧ LoadInv (run hasher ops).2 := by
  unfold run
  exact Inv_foldl ops _ (WF_emptyHM hasher) (LoadInv_emptyHM hasher)

/-! ### Iteration -/

/-- A normalized cursor: either a valid position, or the end-of-table cursor. -/
def NormIter (t : List (List Ptr)) (i : Iter) : Prop :=
  (i.cell < t.length ∧ i.positon < (bucketAt t i.cell).length) ∨
    (i.cell = t.length ∧ i.positon = 0)

theorem find_valid_cell_norm_aux (t : List (List Ptr)) :
    ∀ n c p, t.length - c ≤ n → c ≤ t.length → p ≤ (bucketAt t c).length →
      NormIter t (find_valid_cell t c p) := by
  intro n
  induction n with
  | zero =>
      intro c p hn hc hp
      have hceq : c = t.length := by omega
      have hb : bucketAt t c = [] := bucketAt_of_ge (by omega)
      have hp0 : p = 0 := by rw [hb] at hp; exact Nat.le_zero.mp hp
      rw [find_valid_cell_stop (fun hcp => by omega)]
      right
      exact ⟨hceq, hp0⟩
  | succ n ih =>
      intro c p hn hc hp
      by_cases hcl : c < t.length
      · by_cases hpe : p = (bucketAt t c).length
        · rw [find_valid_cell_step ⟨hcl, hpe⟩]
          exact ih (c + 1) 0 (by omega) (by omega) (Nat.zero_le _)
        · rw [find_valid_cell_stop (fun hcp => hpe hcp.2)]
          left
          exact ⟨hcl, Nat.lt_of_le_of_ne hp hpe⟩
      · have hceq : c = t.length := by omega
        have hb : bucketAt t c = [] := bucketAt_of_ge (by omega)
        have hp0 : p = 0 := by rw [hb] at hp; exact Nat.le_zero.mp hp
        rw [find_valid_cell_stop (fun hcp => hcl hcp.1)]
        right
        exact ⟨hceq, hp0⟩

theorem norm_find_valid_cell {t : List (List Ptr)} {c p : Nat}
    (hc : c ≤ t.length) (hp : p ≤ (bucketAt t c).length) :
    NormIter t (find_valid_cell t c p) :=
  find_valid_cell_norm_aux t (t.length - c) c p (Nat.le_refl _) hc hp

theorem restList_succ (t : List (List Ptr)) (c : Nat) :
    restList t (c + 1) 0 = restList t c ((bucketAt t c).length) := by
  unfold restList
  rw [List.drop_length, List.drop_zero, ← flatten_drop_eq]
  simp

theorem restList_find_valid_cell_aux (t : List (List Ptr)) :
    ∀ n c p, t.length - c ≤ n → c ≤ t.length → p ≤ (bucketAt t c).length →
      restList t (find_valid_cell t c p).cell (find_valid_cell t c p).positon =
        restList t c p := by
  intro n
  induction n with
  | zero =>
      intro c p hn hc hp
      rw [find_valid_cell_stop (fun hcp => by omega)]
  | succ n ih =>
      intro c p hn hc hp
      by_cases hcl : c < t.length
      · by_cases hpe : p = (bucketAt t c).length
        · rw [find_valid_cell_step ⟨hcl, hpe⟩,
            ih (c + 1) 0 (by omega) (by omega) (Nat.zero_le _), restList_succ, hpe]
        · rw [find_valid_cell_stop (fun hcp => hpe hcp.2)]
      · rw [find_valid_cell_stop (fun hcp => hcl hcp.1)]

theorem restList_find_valid_cell {t : List (List Ptr)} {c p : Nat}
    (hc : c ≤ t.length) (hp : p ≤ (bucketAt t c).length) :
    restList t (find_valid_cell t c p).cell (find_valid_cell t c p).positon =
      restList t c p :=
  restList_find_valid_cell_aux t (t.length - c) c p (Nat.le_refl _) hc hp

theorem restList_end (t : List (List Ptr)) : restList t t.length 0 = [] := by
  unfold restList
  rw [bucketAt_of_ge (Nat.le_refl _), List.drop_eq_nil_of_le (Nat.le_succ _)]
  rfl

theorem restList_zero (t : List (List Ptr)) : restList t 0 0 = t.flatten := by
  unfold restList
  rw [List.drop_zero, ← flatten_drop_eq, List.drop_zero]

theorem collect_spec (st : Store K V) (t : List (List Ptr)) :
    ∀ n i, NormIter t i → (restList t i.cell i.positon).length = n →
      collect st t n i =
        ((restList t i.cell i.positon).map (entry st), ⟨t.length, 0⟩) := by
  intro n
  induction n with
  | zero =>
      intro i hnorm hlen
      rcases hnorm with ⟨hc, hp⟩ | ⟨hc, hp⟩
      · exfalso
        unfold restList at hlen
        rw [List.length_append, List.length_drop] at hlen
        omega
      · obtain ⟨ic, ip⟩ := i
        simp only at hc hp
        subst hc
        subst hp
        rw [collect, restList_end]
        rfl
  | succ n ih =>
      intro i hnorm hlen
      rcases hnorm with ⟨hc, hp⟩ | ⟨hc, hp⟩
      · have hne : i ≠ ⟨t.length, 0⟩ := by
          intro he
          rw [he] at hc
          exact absurd hc (lt_irrefl t.length)
        rw [collect, if_neg hne]
        show (iterDeref st t i :: (collect st t n (iterInc t i)).1,
            (collect st t n (iterInc t i)).2) = _
        have hrl : restList t i.cell i.positon =
            (bucketAt t i.cell).getD i.positon 0 ::
              restList t i.cell (i.positon + 1) := by
          unfold restList
          rw [List.getD_eq_getElem _ _ hp, List.drop_eq_getElem_cons hp]
          rfl
        have hinc1 : restList t (iterInc t i).cell (iterInc t i).positon =
            restList t i.cell (i.positon + 1) := by
          unfold iterInc
          exact restList_find_valid_cell (Nat.le_of_lt hc) (Nat.succ_le_of_lt hp)
        have hinc2 : NormIter t (iterInc t i) := by
          unfold iterInc
          exact norm_find_valid_cell (Nat.le_of_lt hc) (Nat.succ_le_of_lt hp)
        have hlen' :
            (restList t (iterInc t i).cell (iterInc t i).positon).length = n := by
          rw [hinc1]
          rw [hrl, List.length_cons] at hlen
          omega
        have hcol := ih (iterInc t i) hinc2 hlen'
        rw [hinc1] at hcol
        rw [hcol, hrl, List.map_cons]
        rfl
      · exfalso
        obtain ⟨ic, ip⟩ := i
        simp only at hc hp
        subst hc
        subst hp
        rw [restList_end] at hlen
        simp at hlen

theorem traversal_eq {st : Store K V} {m : HM K V} (h : WF st m) :
    collect st m.table m.current_size (beginIter m) =
      (entries st m, ⟨m.table.length, 0⟩) := by
  have hb : NormIter m.table (beginIter m) := by
    unfold beginIter
    exact norm_find_valid_cell (Nat.zero_le _) (Nat.zero_le _)
  have hr : restList m.table (beginIter m).cell (beginIter m).positon =
      m.table.flatten := by
    unfold beginIter
    rw [restList_find_valid_cell (Nat.zero_le _) (Nat.zero_le _), restList_zero]
  have hlen : (restList m.table (beginIter m).cell (beginIter m).positon).length =
      m.current_size := by
    rw [hr, ← h.2.2.2.1]
  rw [collect_spec st m.table m.current_size (beginIter m) hb hlen, hr]
  rfl

/-! ## The claims -/

/-- C1 scenario, insert phase: keys 1..=20 with values i*i, identity hasher
(the capacity trace is hash-independent: distinct keys always insert). -/
def scenarioInserts : List (Op Nat Nat) :=
  (List.range 20).map (fun j => Op.ins (j + 1) ((j + 1) * (j + 1)))

/-- C1 scenario, erase phase: keys 1..=n. -/
def scenarioErases (n : Nat) : List (Op Nat Nat) :=
  (List.range n).map (fun j => Op.del (j + 1))

/-- C1: the claim is false on the code where it asserts `capacity = 40` after
the 20 inserts: the rebuild at the 11th insert sets capacity 22, and no later
insert exceeds 22, so the capacity after all 20 inserts is 22, not 40; and at
size 9 (after erasing keys 1..=11) no shrink rebuild has fired — the capacity
is still 22, since 9*4 = 36 ≥ 22. -/
theorem c1_counterexample :
    (run (fun k => k) scenarioInserts).2.current_capacity = 22 ∧
    (run (fun k => k) scenarioInserts).2.current_capacity ≠ 40 ∧
    (run (fun k => k) (scenarioInserts ++ scenarioErases 11)).2.current_size = 9 ∧
    (run (fun k => k) (scenarioInserts ++ scenarioErases 11)).2.current_capacity
      = 22 := by
  decide

/-- C1 (amended): after the 11th insert the rebuild produces capacity
`max(10, 22) = 22`; after all 20 inserts `size = 20`, `capacity = 22` and
`at(15)` returns 225; erasing keys 1..=17 triggers the shrink rebuild at
`size = 5` (first point where `size*4 < capacity`: 20 < 22), collapsing the
capacity to `max(10, 10) = 10`; the final state has size 3 and capacity 10. -/
theorem c1_amended_scenario :
    (run (fun k => k) (scenarioInserts.take 11)).2.current_capacity = 22 ∧
    (run (fun k => k) scenarioInserts).2.current_size = 20 ∧
    (run (fun k => k) scenarioInserts).2.current_capacity = 22 ∧
    at_ (run (fun k => k) scenarioInserts).1
      (run (fun k => k) scenarioInserts).2 15 = some 225 ∧
    (run (fun k => k) (scenarioInserts ++ scenarioErases 14)).2.current_size = 6 ∧
    (run (fun k => k) (scenarioInserts ++ scenarioErases 14)).2.current_capacity
      = 22 ∧
    (run (fun k => k) (scenarioInserts ++ scenarioErases 15)).2.current_size = 5 ∧
    (run (fun k => k) (scenarioInserts ++ scenarioErases 15)).2.current_capacity
      = 10 ∧
    (run (fun k => k) (scenarioInserts ++ scenarioErases 17)).2.current_size = 3 ∧
    (run (fun k => k) (scenarioInserts ++ scenarioErases 17)).2.current_capacity
      = 10 := by
  decide

/-- C2: the claimed bound `capacity/4 ≤ size` (equivalently `size*4 ≥
capacity`) is false right after the very first insert: the shrink rebuild sets
`capacity = max(10, 2) = 10` while `size = 1`, and `1 * 4 = 4 < 10`. -/
theorem c2_counterexample :
    (run (fun k => k) ([Op.ins 1 1] : List (Op Nat Nat))).2.current_size = 1 ∧
    (run (fun k => k) ([Op.ins 1 1] : List (Op Nat Nat))).2.current_capacity
      = 10 ∧
    ¬((run (fun k => k) ([Op.ins 1 1] : List (Op Nat Nat))).2.current_size * 4 ≥
      (run (fun k => k) ([Op.ins 1 1] : List (Op Nat Nat))).2.current_capacity)
      := by
  decide

/-- C2 (amended): after any sequence of public operations — in particular
right after every insert or erase call returns — `size ≤ capacity` and
`capacity ≥ 10` hold, and the lower load bound holds in the weakened form
`capacity ≤ size * 4 ∨ capacity = 10`: the spec's `capacity/4 ≤ size` can
fail only while the capacity sits at its floor `MIN_NUM_OF_CELLS = 10`. -/
theorem c2_load_factor_invariant (hasher : K → Nat) (ops : List (Op K V)) :
    (run hasher ops).2.current_size ≤ (run hasher ops).2.current_capacity ∧
    MIN_NUM_OF_CELLS ≤ (run hasher ops).2.current_capacity ∧
    ((run hasher ops).2.current_capacity ≤
        (run hasher ops).2.current_size * SCALE ∨
      (run hasher ops).2.current_capacity = MIN_NUM_OF_CELLS) :=
  (WF_run hasher ops).2

/-- C3 scenario: a map holding the single entry (1, 10). -/
def c3_base : Store Nat Nat × HM Nat Nat :=
  insert ([] : Store Nat Nat) (emptyHM (fun k => k)) 1 10

/-- C3 scenario: the store after assigning 99 through the reference
`a[1]` obtained from the original map. -/
def c3_mutated : Store Nat Nat :=
  storeSet (opIndex c3_base.1 c3_base.2 1).1 (opIndex c3_base.1 c3_base.2 1).2.2 99

/-- C3: the copy constructor copies the `table_` of `shared_ptr`s, so the copy
aliases the original's entries instead of duplicating them: before the
mutation both containers show 10 for key 1, but after `a[1] = 99` through the
original, the copy observes 99 as well — the containers are not independent,
contradicting the claim (and the spec's stated intent of the copy). -/
theorem c3_copy_shares_entries :
    at_ c3_base.1 (copy c3_base.2) 1 = some 10 ∧
    at_ c3_mutated c3_base.2 1 = some 99 ∧
    at_ c3_mutated (copy c3_base.2) 1 = some 99 ∧
    ¬(at_ c3_mutated (copy c3_base.2) 1 = some 10) := by
  decide

/-- C4 scenario: a source map holding the single entry (1, 10). -/
def c4_src : Store Nat Nat × HM Nat Nat :=
  insert ([] : Store Nat Nat) (emptyHM (fun k => k)) 1 10

/-- C4: `operator=(const HashMap&&)` takes a const rvalue reference, so the
`std::move`s inside degrade to copies and the source is left untouched — after
the "move" the source still has size 1 and still answers `at(1) = 10`,
contradicting the claim that the source is left logically empty (the
destination does receive the entries, shared with the source). -/
theorem c4_move_assign_not_emptying :
    (moveAssign (emptyHM (fun k => k)) c4_src.2).2 = c4_src.2 ∧
    (moveAssign (emptyHM (fun k => k)) c4_src.2).2.current_size = 1 ∧
    at_ c4_src.1 (moveAssign (emptyHM (fun k => k)) c4_src.2).2 1 = some 10 ∧
    at_ c4_src.1 (moveAssign (emptyHM (fun k => k)) c4_src.2).1 1 = some 10 :=
  ⟨rfl, by decide, by decide, by decide⟩

/-- C5: inserting a fresh key `k` with `v1` and then inserting `k` again with
`v2` keeps the value `v1`; the second call is a no-op returning the state
unchanged (no failure is signalled — `insert` has no failure channel); the
size grows by exactly 1 across the two calls. -/
theorem c5_insert_idempotent {st : Store K V} {m : HM K V} {k : K} (h : WF st m)
    (hnc : ¬containsKey st m k) (v1 v2 : V) :
    at_ (insert (insert st m k v1).1 (insert st m k v1).2 k v2).1
        (insert (insert st m k v1).1 (insert st m k v1).2 k v2).2 k = some v1 ∧
    insert (insert st m k v1).1 (insert st m k v1).2 k v2 =
      ((insert st m k v1).1, (insert st m k v1).2) ∧
    (insert (insert st m k v1).1 (insert st m k v1).2 k v2).2.current_size =
      m.current_size + 1 := by
  have h1 : WF (insert st m k v1).1 (insert st m k v1).2 := WF_insert h k v1
  have hmem : (k, v1) ∈ entries (insert st m k v1).1 (insert st m k v1).2 :=
    (entries_insert_perm h hnc v1).mem_iff.mpr (by simp)
  have hc1 : containsKey (insert st m k v1).1 (insert st m k v1).2 k := by
    unfold containsKey keys
    exact List.mem_map.mpr ⟨(k, v1), hmem, rfl⟩
  have hnoop := insert_of_contains h1 hc1 v2
  refine ⟨?_, hnoop, ?_⟩
  · rw [hnoop]
    exact at_eq_some_of_mem h1 hmem
  · rw [hnoop]
    show (insert st m k v1).2.current_size = m.current_size + 1
    exact insert_size h hnc v1

theorem c5_witness :
    at_ (insert (insert ([] : Store Nat Nat) (emptyHM (fun k => k)) 1 5).1
        (insert ([] : Store Nat Nat) (emptyHM (fun k => k)) 1 5).2 1 7).1
      (insert (insert ([] : Store Nat Nat) (emptyHM (fun k => k)) 1 5).1
        (insert ([] : Store Nat Nat) (emptyHM (fun k => k)) 1 5).2 1 7).2 1 =
      some 5 ∧
    (insert (insert ([] : Store Nat Nat) (emptyHM (fun k => k)) 1 5).1
      (insert ([] : Store Nat Nat) (emptyHM (fun k => k)) 1 5).2 1 7).2.current_size
      = 1 :=
  ⟨(c5_insert_idempotent (by decide) (by decide) 5 7).1,
    (c5_insert_idempotent (by decide) (by decide) 5 7).2.2⟩

/-- C6 scenario: a map holding the single entry (1, 5). -/
def c6_state : Store Nat Nat × HM Nat Nat :=
  insert ([] : Store Nat Nat) (emptyHM (fun k => k)) 1 5

/-- C6: the claim is false as stated for a key that is already present with a
different value: after `insert(1, 7)` on a map holding (1, 5), `find(1)`
dereferences to the entry (1, 5), not to value 7 — insert does not
overwrite. -/
theorem c6_counterexample :
    iterDeref (insert c6_state.1 c6_state.2 1 7).1
        (insert c6_state.1 c6_state.2 1 7).2.table
        (find (insert c6_state.1 c6_state.2 1 7).1
          (insert c6_state.1 c6_state.2 1 7).2 1) = (1, 5) ∧
    ((1, 5) : Nat × Nat) ≠ (1, 7) := by
  have hl : findInBucket (insert c6_state.1 c6_state.2 1 7).1 1
      (bucketAt (insert c6_state.1 c6_state.2 1 7).2.table
        (hashOf (insert c6_state.1 c6_state.2 1 7).2 1)) = some 0 := by
    decide
  rw [find_eq_of_scan_some hl]
  exact ⟨by decide, by decide⟩

/-- C6 (amended): for a key `k` not already present, after `insert(k, v)` the
call `find(k)` is not the end-of-table cursor and dereferences to the entry
`(k, v)`; when `k` is already present the insert is a no-op and `find`
returns the pre-existing entry instead. -/
theorem c6_round_trip {st : Store K V} {m : HM K V} {k : K} (h : WF st m)
    (hnc : ¬containsKey st m k) (v : V) :
    find (insert st m k v).1 (insert st m k v).2 k ≠
        endIter (insert st m k v).2 ∧
    iterDeref (insert st m k v).1 (insert st m k v).2.table
        (find (insert st m k v).1 (insert st m k v).2 k) = (k, v) := by
  have h1 := WF_insert h k v
  have hmem : (k, v) ∈ entries (insert st m k v).1 (insert st m k v).2 :=
    (entries_insert_perm h hnc v).mem_iff.mpr (by simp)
  exact find_deref_of_mem h1 hmem

theorem c6_witness :
    iterDeref (insert ([] : Store Nat Nat) (emptyHM (fun k => k)) 1 5).1
        (insert ([] : Store Nat Nat) (emptyHM (fun k => k)) 1 5).2.table
        (find (insert ([] : Store Nat Nat) (emptyHM (fun k => k)) 1 5).1
          (insert ([] : Store Nat Nat) (emptyHM (fun k => k)) 1 5).2 1) =
      (1, 5) :=
  (c6_round_trip (by decide) (by decide) 5).2

/-- C7: erasing a present key removes its unique entry — the size decreases by
exactly 1, the key is gone, and a subsequent `find` yields the end-of-table
cursor; erasing an absent key is a no-op leaving the container exactly
unchanged. -/
theorem c7_erase_correct {st : Store K V} {m : HM K V} (h : WF st m) (k : K) :
    (containsKey st m k →
      (erase st m k).current_size + 1 = m.current_size ∧
      ¬containsKey st (erase st m k) k ∧
      find st (erase st m k) k = endIter (erase st m k)) ∧
    (¬containsKey st m k → erase st m k = m) := by
  constructor
  · intro hc
    have hwf' : WF st (erase st m k) := WF_erase h k
    have hnc' := not_contains_erase h hc
    exact ⟨erase_size h hc, hnc', (find_eq_end_iff hwf' k).mpr hnc'⟩
  · intro hnc
    exact erase_of_not_contains h hnc

theorem c7_witness :
    (erase (insert ([] : Store Nat Nat) (emptyHM (fun k => k)) 1 5).1
        (insert ([] : Store Nat Nat) (emptyHM (fun k => k)) 1 5).2 1).current_size
        + 1 =
      (insert ([] : Store Nat Nat) (emptyHM (fun k => k)) 1 5).2.current_size ∧
    erase (insert ([] : Store Nat Nat) (emptyHM (fun k => k)) 1 5).1
        (insert ([] : Store Nat Nat) (emptyHM (fun k => k)) 1 5).2 2 =
      (insert ([] : Store Nat Nat) (emptyHM (fun k => k)) 1 5).2 :=
  ⟨((c7_erase_correct (by decide) 1).1 (by decide)).1,
    (c7_erase_correct (by decide) 2).2 (by decide)⟩

/-- C8: `at` returns the stored value exactly on present keys and fails with
NotFound (modelled as `none`) exactly when no entry has the key; it is a pure
observation of the state.  The other lookup-style operations handle a missing
key silently: `find` returns the end cursor, `erase` leaves the map exactly
unchanged, and `operator[]` auto-creates the entry with the default value
instead of failing. -/
theorem c8_at_notfound {st : Store K V} {m : HM K V} (h : WF st m) (k : K) :
    (∀ v, (k, v) ∈ entries st m → at_ st m k = some v) ∧
    (at_ st m k = none ↔ ¬containsKey st m k) ∧
    (¬containsKey st m k →
      find st m k = endIter m ∧
      erase st m k = m ∧
      at_ (opIndex st m k).1 (opIndex st m k).2.1 k = some default) := by
  refine ⟨fun v hv => at_eq_some_of_mem h hv, at_eq_none_iff h k, fun hnc => ?_⟩
  refine ⟨(find_eq_end_iff h k).mpr hnc, erase_of_not_contains h hnc, ?_⟩
  rw [(opIndex_state st m k).1, (opIndex_state st m k).2]
  have h1 := WF_insert h k (default : V)
  have hmem : (k, (default : V)) ∈
      entries (insert st m k default).1 (insert st m k default).2 :=
    (entries_insert_perm h hnc default).mem_iff.mpr (by simp)
  exact at_eq_some_of_mem h1 hmem

theorem c8_witness :
    at_ ([] : Store Nat Nat) (emptyHM (fun k => k)) 3 = none ∧
    find ([] : Store Nat Nat) (emptyHM (fun k => k)) 3 =
      endIter (emptyHM (fun k => k) : HM Nat Nat) ∧
    at_ (opIndex ([] : Store Nat Nat) (emptyHM (fun k => k)) 3).1
      (opIndex ([] : Store Nat Nat) (emptyHM (fun k => k)) 3).2.1 3 = some 0 :=
  ⟨(c8_at_notfound (by decide) 3).2.1.mpr (by decide),
    ((c8_at_notfound (by decide) 3).2.2 (by decide)).1,
    ((c8_at_notfound (by decide) 3).2.2 (by decide)).2.2⟩

/-- From any well-formed state, the traversal that starts at `begin()` and
dereferences-then-increments exactly `size()` times produces `size()` pairs,
lands exactly on the `end()` cursor, and the produced keys are pairwise
distinct. -/
theorem iteration_complete_of_WF {st : Store K V} {m : HM K V} (h : WF st m) :
    (collect st m.table m.current_size (beginIter m)).1.length =
      m.current_size ∧
    (collect st m.table m.current_size (beginIter m)).2 = endIter m ∧
    ((collect st m.table m.current_size (beginIter m)).1.map Prod.fst).Nodup := by
  have ht := traversal_eq h
  refine ⟨?_, ?_, ?_⟩
  · rw [ht]
    show (entries st m).length = m.current_size
    unfold entries
    rw [List.length_map]
    exact h.2.2.2.1.symm
  · rw [ht, endIter_eq]
  · rw [ht]
    show ((entries st m).map Prod.fst).Nodup
    exact h.2.2.2.2.1

/-- C9: in every reachable table state (any sequence of public operations run
from a fresh map), the full traversal from `begin()` by repeated increment
terminates after exactly `size()` steps on the `end()` cursor, produces
exactly `size()` (key, value) pairs, and the produced keys are pairwise
distinct. -/
theorem c9_iteration_complete (hasher : K → Nat) (ops : List (Op K V)) :
    (collect (run hasher ops).1 (run hasher ops).2.table
      (run hasher ops).2.current_size (beginIter (run hasher ops).2)).1.length =
      (run hasher ops).2.current_size ∧
    (collect (run hasher ops).1 (run hasher ops).2.table
      (run hasher ops).2.current_size (beginIter (run hasher ops).2)).2 =
      endIter (run hasher ops).2 ∧
    ((collect (run hasher ops).1 (run hasher ops).2.table
      (run hasher ops).2.current_size
        (beginIter (run hasher ops).2)).1.map Prod.fst).Nodup :=
  iteration_complete_of_WF (WF_run hasher ops).1

/-- C10: on a present key, `operator[]` returns the pointer of the existing
entry — whose key is `k` and whose value is exactly what `at` reads — and the
container is unchanged: same store and same map value, hence same size,
capacity, bucket contents and bucket order, and no rebuild. -/
theorem c10_opIndex_frame {st : Store K V} {m : HM K V} {k : K} (h : WF st m)
    (hc : containsKey st m k) :
    (opIndex st m k).1 = st ∧
    (opIndex st m k).2.1 = m ∧
    (entry st (opIndex st m k).2.2).1 = k ∧
    (opIndex st m k).2.2 ∈ m.table.flatten ∧
    at_ st m k = some (entry st (opIndex st m k).2.2).2 := by
  have hne := (containsKey_iff_scan h k).mp hc
  cases hl : lookupInBucket st k (bucketAt m.table (hashOf m k)) with
  | none => exact absurd hl hne
  | some p =>
      obtain ⟨hp, hk⟩ := lookupInBucket_eq_some hl
      rw [opIndex_of_scan_some hl]
      refine ⟨rfl, rfl, hk, mem_flatten_iff.mpr ⟨hashOf m k, hashOf_lt h k, hp⟩, ?_⟩
      unfold at_
      rw [hl]

theorem c10_witness :
    (opIndex (insert ([] : Store Nat Nat) (emptyHM (fun k => k)) 1 5).1
        (insert ([] : Store Nat Nat) (emptyHM (fun k => k)) 1 5).2 1).2.1 =
      (insert ([] : Store Nat Nat) (emptyHM (fun k => k)) 1 5).2 ∧
    (opIndex (insert ([] : Store Nat Nat) (emptyHM (fun k => k)) 1 5).1
        (insert ([] : Store Nat Nat) (emptyHM (fun k => k)) 1 5).2 1).1 =
      (insert ([] : Store Nat Nat) (emptyHM (fun k => k)) 1 5).1 :=
  ⟨(c10_opIndex_frame (by decide) (by decide)).2.1,
    (c10_opIndex_frame (by decide) (by decide)).1⟩

end HashTable
